import Mathlib

/-!
Verification of the umay TLS-terminating L4 proxy: a shallow embedding of the
load-balancing selectors (`src/balance/selection.rs`), the backend registry and
discovery (`src/balance/mod.rs`, `src/balance/discovery.rs`), the load
balancer's `select` (`src/balance/mod.rs`), and the TLS terminator's outcome
logic (`src/tls/server.rs`), together with theorems about the properties the
specification states of them.

Modelling conventions:
* A `BTreeSet<Backend>` snapshot is embedded as the `List Backend` of its
  ascending iteration order; `BTreeSet` construction (`collect`) is embedded by
  ordered duplicate-free insertion.
* `usize` counters are `Nat`; the in-flight connection counts of
  `LeastConnections` are `Int` so that absence of underflow is a statement and
  not a triviality of the value type.
* Randomness (`thread_rng`) and the external `DefaultHasher` are inputs: the
  sampled index and the hash functions are parameters of the embedded
  operations.
* Async methods are embedded as pure state-passing functions; the result of the
  awaited discovery call is passed to `Backends.refresh` as an `Except` value.
-/

/-- A socket address (`std::net::SocketAddr`): IP (abstracted to a number) and
port. -/
structure SocketAddr where
  ip : Nat
  port : Nat
deriving DecidableEq

/-- `Backend` (`balance/mod.rs`): an upstream target, `addr` plus `weight`. -/
structure Backend where
  addr : SocketAddr
  weight : Nat
deriving DecidableEq

/-- The derived lexicographic `Ord` on `Backend` ((ip, port), then weight),
as a Boolean strict order. -/
def Backend.blt (x y : Backend) : Bool :=
  (x.addr.ip < y.addr.ip) ||
    (x.addr.ip = y.addr.ip &&
      ((x.addr.port < y.addr.port) ||
        (x.addr.port = y.addr.port && x.weight < y.weight)))

/-- Ordered duplicate-free insertion: one step of collecting into a
`BTreeSet<Backend>`. -/
def insertSet (b : Backend) : List Backend → List Backend
  | [] => [b]
  | c :: rest =>
    if Backend.blt b c then b :: c :: rest
    else if b = c then c :: rest
    else c :: insertSet b rest

/-- `collect::<BTreeSet<Backend>>()` on a list of backends. -/
def toSet (l : List Backend) : List Backend :=
  l.foldr insertSet []

/-- `RoundRobin::select` (`selection.rs:29-36`). `idx` is the value returned by
`fetch_add` on the selector's atomic counter. -/
def RoundRobin.select (backends : List Backend) (idx : Nat) : Option Backend :=
  if backends.length = 0 then none
  else backends[idx % backends.length]?

/-- Total weight `backends.iter().map(|b| b.weight).sum()` (`selection.rs:53`). -/
def totalWeight (backends : List Backend) : Nat :=
  (backends.map Backend.weight).sum

/-- The linear scan of `WeightedRoundRobin::select` (`selection.rs:58-63`):
walk the snapshot subtracting weights until the cursor lands inside a
backend's weight span. -/
def wrrScan : List Backend → Nat → Option Backend
  | [], _ => none
  | b :: rest, idx => if idx < b.weight then some b else wrrScan rest (idx - b.weight)

/-- `WeightedRoundRobin::select` (`selection.rs:52-65`). `idx` is the value
returned by `fetch_add` on the selector's atomic counter. -/
def WeightedRoundRobin.select (backends : List Backend) (idx : Nat) : Option Backend :=
  if totalWeight backends = 0 then none
  else wrrScan backends (idx % totalWeight backends)

/-- The `LeastConnections` in-flight map (`BTreeMap<SocketAddr, usize>`),
embedded as an association list in key iteration order with `Int` counts. -/
abbrev ConnMap := List (SocketAddr × Int)

/-- `connections.get(&addr)` on the embedded map. -/
def connGet : ConnMap → SocketAddr → Option Int
  | [], _ => none
  | (k, v) :: rest, a => if k = a then some v else connGet rest a

/-- `connections.get(&b.addr).unwrap_or(&0)` (`selection.rs:108`). -/
def connCount (m : ConnMap) (a : SocketAddr) : Int :=
  (connGet m a).getD 0

/-- `LeastConnections::increment` (`selection.rs:81-87`):
`*new_connections.entry(*addr).or_insert(0) += 1`. -/
def LeastConnections.increment : ConnMap → SocketAddr → ConnMap
  | [], a => [(a, 1)]
  | (k, v) :: rest, a =>
    if k = a then (k, v + 1) :: rest
    else (k, v) :: LeastConnections.increment rest a

/-- `LeastConnections::decrement` (`selection.rs:89-99`): decrement only when
the address is present with a strictly positive count. -/
def LeastConnections.decrement : ConnMap → SocketAddr → ConnMap
  | [], _ => []
  | (k, v) :: rest, a =>
    if k = a then (if v > 0 then (k, v - 1) :: rest else (k, v) :: rest)
    else (k, v) :: LeastConnections.decrement rest a

/-- Rust's `Iterator::min_by_key` as the left fold it is defined by: a later
element replaces the accumulator only when its key is strictly smaller, so on
ties the first minimal element wins. -/
def minByKeyFold {α β : Type} [LinearOrder β] (f : α → β) (l : List α) : Option α :=
  l.foldl
    (fun acc x =>
      match acc with
      | none => some x
      | some m => if f x < f m then some x else some m)
    none

/-- `LeastConnections::select` (`selection.rs:104-110`):
`backends.iter().min_by_key(|b| connections.get(&b.addr).unwrap_or(&0))`. -/
def LeastConnections.select (m : ConnMap) (backends : List Backend) : Option Backend :=
  minByKeyFold (fun b => connCount m b.addr) backends

/-- `Random::select` (`selection.rs:118-125`). `r` is the index sampled by
`rng.gen_range(0..backends.len())`. -/
def Random.select (backends : List Backend) (r : Nat) : Option Backend :=
  if backends.isEmpty then none
  else backends[r]?

/-- The `Selector` enum of `balance/mod.rs:58-63`, with each variant's mutable
state made explicit: the sampled index for `Random`, the mutex-held counter for
`RoundRobin`, and the `(Backend, usize)` vector for `LeastConnection`. -/
inductive Selector where
  | random (r : Nat)
  | roundRobin (counter : Nat)
  | leastConnection (conns : List (Backend × Nat))
  | consistentHashing
deriving DecidableEq

/-- `LoadBalancer::select` (`balance/mod.rs:78-112`). `hashStr` stands for the
`DefaultHasher` run on the key string, `hashBackend` for `Backend::hash_key`;
both are external hash functions and hence parameters. -/
def LoadBalancer.select (hashStr : String → Nat) (hashBackend : Backend → Nat)
    (sel : Selector) (backends : List Backend) (key : Option String) : Option Backend :=
  if backends.isEmpty then none
  else
    match sel with
    | .random r => backends[r]?
    | .roundRobin c => backends[(c + 1) % backends.length]?
    | .leastConnection conns =>
      ((conns.mergeSort (fun x y => x.2 ≤ y.2)).head?).map (·.1)
    | .consistentHashing =>
      match key with
      | some k => minByKeyFold (fun b => Nat.xor (hashBackend b) (hashStr k)) backends
      | none => none

/-- C1: with an empty backend snapshot, every selector's `select`
(`RoundRobin`, `WeightedRoundRobin`, `LeastConnections`, `Random`) and the load
balancer's `select` return `none`. -/
theorem select_empty_snapshot_none :
    ∀ (i r : Nat) (m : ConnMap) (hashStr : String → Nat) (hashBackend : Backend → Nat)
      (sel : Selector) (key : Option String),
      RoundRobin.select [] i = none ∧
      WeightedRoundRobin.select [] i = none ∧
      LeastConnections.select m [] = none ∧
      Random.select [] r = none ∧
      LoadBalancer.select hashStr hashBackend sel [] key = none := by
  intro i r m hashStr hashBackend sel key
  refine ⟨rfl, rfl, rfl, rfl, ?_⟩
  simp [LoadBalancer.select]

/-- `DnsDiscovery::discover` (`discovery.rs:47-62`): one backend per resolved
IP at the configured port with weight 1, collected into a set; the empty
resolution is an error. `ips` is the list of addresses the external resolver
returned. -/
def DnsDiscovery.discover (ips : List Nat) (port : Nat) : Except String (List Backend) :=
  let backends := toSet (ips.map (fun ip => { addr := { ip := ip, port := port }, weight := 1 }))
  if backends.isEmpty then .error "No backends found" else .ok backends

/-- `LocalDiscovery::discover` (`discovery.rs:119-121`): returns the stored set
unconditionally, with no emptiness check. -/
def LocalDiscovery.discover (stored : List Backend) : Except String (List Backend) :=
  .ok stored

/-- `Backends::refresh` (`balance/mod.rs:46-50`): the published snapshot after
one refresh attempt whose discovery call produced `discovered`. The `?` on the
discovery call returns early on error, leaving the stored snapshot untouched;
on success the result is stored. -/
def Backends.refresh (current : List Backend) (discovered : Except String (List Backend)) :
    List Backend :=
  match discovered with
  | .ok nb => nb
  | .error _ => current

/-- C2 fails as stated: a registry over a local discovery source holding the
empty set publishes the empty snapshot after a refresh, observable via
`get_backends`. -/
theorem refresh_publishes_empty_counterexample :
    Backends.refresh [{ addr := { ip := 1, port := 80 }, weight := 1 }]
      (LocalDiscovery.discover []) = [] := rfl

/-- C2 (amended): under DNS discovery, empty resolution is an error and the
previous snapshot is retained, so a refresh never replaces a non-empty
published snapshot with an empty one; local discovery performs no such check. -/
theorem dns_refresh_nonempty (current : List Backend) (ips : List Nat) (port : Nat)
    (h : current ≠ []) :
    Backends.refresh current (DnsDiscovery.discover ips port) ≠ [] := by
  unfold Backends.refresh DnsDiscovery.discover
  by_cases hE :
      (toSet (ips.map (fun ip => { addr := { ip := ip, port := port }, weight := 1 }))).isEmpty
  · simpa [hE] using h
  · rw [if_neg hE]
    intro hnil
    simp only [] at hnil
    exact hE (by simp [hnil])

theorem dns_refresh_nonempty_witness :
    Backends.refresh [{ addr := { ip := 1, port := 80 }, weight := 1 }]
      (DnsDiscovery.discover [] 80) ≠ [] :=
  dns_refresh_nonempty [{ addr := { ip := 1, port := 80 }, weight := 1 }] [] 80 (by decide)

/-- C4: `refresh` is atomic with respect to failure: a discovery error leaves
the published snapshot unchanged, and a discovery success publishes exactly the
discovered set. -/
theorem refresh_atomic :
    (∀ (current : List Backend) (e : String), Backends.refresh current (.error e) = current) ∧
    (∀ (current nb : List Backend), Backends.refresh current (.ok nb) = nb) :=
  ⟨fun _ _ => rfl, fun _ _ => rfl⟩

/-- What a completed rustls server handshake exposes to `TerminateFuture::poll`
(`tls/server.rs:83-96`): the SNI the client presented, the peer certificate
chain in DER, and the negotiated ALPN protocol. This also stands in for the
`TlsStream` the future yields. -/
structure HandshakeSession where
  sni : Option String
  peerCerts : List (List Nat)
  alpn : Option (List Nat)
deriving DecidableEq

/-- `ServerTls` (`tls/mod.rs:21-29`). -/
inductive ServerTls where
  | established (client_id : Option (List Nat)) (negotiated_protocol : Option (List Nat))
  | passthru (sni : String)
deriving DecidableEq

/-- `client_identity` (`tls/mod.rs:129-134`): the DER of the first peer
certificate, if any. -/
def client_identity (s : HandshakeSession) : Option (List Nat) :=
  s.peerCerts.head?

/-- The outcome logic of `TerminateFuture::poll` (`tls/server.rs:83-103`) after
a successful handshake: whenever any SNI is present, yield `Passthru` with that
SNI; otherwise yield `Established` with the client identity and ALPN. -/
def TerminateFuture.outcome (s : HandshakeSession) : ServerTls :=
  match s.sni with
  | some sni => .passthru sni
  | none => .established (client_identity s) s.alpn

/-- The outcome policy the claim states: `Passthru` iff an SNI was presented
that is not the name this terminator owns (`Server.name`); otherwise
`Established`. -/
def TerminateFuture.outcomeOwned (ownedName : String) (s : HandshakeSession) : ServerTls :=
  match s.sni with
  | some sni =>
    if sni ≠ ownedName then .passthru sni
    else .established (client_identity s) s.alpn
  | none => .established (client_identity s) s.alpn

/-- `TlsTerminator::terminate` via `TerminateFuture::poll`
(`tls/server.rs:79-104`): the `?` propagates a handshake error with no outcome
and no stream; a successful handshake yields the outcome together with the
stream. -/
def Server.terminate (hs : Except String HandshakeSession) :
    Except String (ServerTls × HandshakeSession) :=
  match hs with
  | .error e => .error e
  | .ok s => .ok (TerminateFuture.outcome s, s)

/-- C3: the code diverges from the claim at a handshake whose SNI equals the
terminator's own name: `poll` yields `Passthru` (it never consults
`Server.name`), while the claimed policy yields `Established`. -/
theorem passthru_owned_sni_divergence :
    TerminateFuture.outcome { sni := some "a", peerCerts := [], alpn := none }
        = .passthru "a" ∧
      TerminateFuture.outcomeOwned "a" { sni := some "a", peerCerts := [], alpn := none }
        = .established none none := by
  constructor
  · rfl
  · simp [TerminateFuture.outcomeOwned, client_identity]

/-- C7: `terminate` either fails with the handshake error, producing no outcome
and no stream, or succeeds with an outcome and the TLS stream; it never yields
a stream together with an error. -/
theorem terminate_outcome_xor_error :
    ∀ hs : Except String HandshakeSession,
      (∃ e, hs = .error e ∧ Server.terminate hs = .error e) ∨
      (∃ s, hs = .ok s ∧ Server.terminate hs = .ok (TerminateFuture.outcome s, s)) := by
  intro hs
  cases hs with
  | error e => exact .inl ⟨e, rfl, rfl⟩
  | ok s => exact .inr ⟨s, rfl, rfl⟩

/-- Rotating `List.range k` by `c` modulo `k` is a permutation of it. -/
theorem rot_range_perm (k : Nat) :
    ∀ c : Nat, ((List.range k).map (fun j => (c + j) % k)).Perm (List.range k) := by
  intro c
  induction c with
  | zero =>
    have h0 : (List.range k).map (fun j => (0 + j) % k) = (List.range k).map id :=
      List.map_congr_left (fun j hj => by
        simp [Nat.mod_eq_of_lt (List.mem_range.mp hj)])
    rw [h0, List.map_id]
  | succ c ih =>
    have hfun : (fun j => (c + 1 + j) % k) = (fun j => (c + (j + 1)) % k) := by
      funext j
      congr 1
      omega
    rw [hfun]
    have hsplit : (0 :: (List.range k).map (· + 1)) = List.range k ++ [k] := by
      rw [← List.range_succ_eq_map, List.range_succ]
    have happ := congrArg (List.map (fun j => (c + j) % k)) hsplit
    simp only [List.map_cons, List.map_append, List.map_map, List.map_nil] at happ
    have hk : (c + k) % k = (c + 0) % k := by
      simp [Nat.add_mod_right]
    rw [hk] at happ
    have hcons :
        ((c + 0) % k ::
            ((List.range k).map ((fun j => (c + j) % k) ∘ (· + 1)))).Perm
          ((c + 0) % k :: (List.range k).map (fun j => (c + j) % k)) := by
      rw [happ]
      exact List.perm_append_singleton _ _
    have htail := hcons.cons_inv
    have hcomp : (List.range k).map ((fun j => (c + j) % k) ∘ (· + 1))
        = (List.range k).map (fun j => (c + (j + 1)) % k) := rfl
    rw [hcomp] at htail
    exact htail.trans ih

/-- Indexing a list at `0, 1, …, length - 1` returns exactly its elements. -/
theorem map_getElemOpt_range (bs : List Backend) :
    (List.range bs.length).map (fun i => bs[i]?) = bs.map some := by
  induction bs with
  | nil => rfl
  | cons b t ih =>
    rw [List.length_cons, List.range_succ_eq_map]
    simp only [List.map_cons, List.map_map, List.map_cons]
    refine congrArg₂ (· :: ·) (by simp) ?_
    have hpt : (List.range t.length).map ((fun i => (b :: t)[i]?) ∘ (· + 1))
        = (List.range t.length).map (fun i => t[i]?) :=
      List.map_congr_left (fun i _ => by simp)
    rw [hpt, ih]

/-- Indexing a snapshot at `c % k, (c+1) % k, …, (c+k-1) % k` is a permutation
of the snapshot. -/
theorem getElem_rot_perm (bs : List Backend) (c : Nat) :
    ((List.range bs.length).map (fun j => bs[(c + j) % bs.length]?)).Perm
      (bs.map some) := by
  have hmm : (List.range bs.length).map (fun j => bs[(c + j) % bs.length]?)
      = ((List.range bs.length).map (fun j => (c + j) % bs.length)).map
          (fun i => bs[i]?) := by
    rw [List.map_map]
    rfl
  rw [hmm, ← map_getElemOpt_range bs]
  exact (rot_range_perm bs.length c).map _

/-- One call of the `Selector::RoundRobin` arm of `LoadBalancer::select`
(`balance/mod.rs:86-90`): advance the stored counter modulo the snapshot
length, then index; an empty snapshot returns early without touching the
counter. Returns the new counter value and the selection. -/
def LoadBalancer.roundRobinStep (backends : List Backend) (c : Nat) : Nat × Option Backend :=
  if backends.isEmpty then (c, none)
  else
    ((c + 1) % backends.length, backends[(c + 1) % backends.length]?)

/-- `n` consecutive sequential uncontended calls of the load balancer's
round-robin arm, threading the stored counter. -/
def LoadBalancer.roundRobinRun (backends : List Backend) (c : Nat) : Nat → List (Option Backend)
  | 0 => []
  | n + 1 =>
    (LoadBalancer.roundRobinStep backends c).2 ::
      LoadBalancer.roundRobinRun backends (LoadBalancer.roundRobinStep backends c).1 n

theorem roundRobinRun_eq_map (bs : List Backend) (hne : ¬bs.isEmpty) :
    ∀ (n c : Nat),
      LoadBalancer.roundRobinRun bs c n
        = (List.range n).map (fun j => bs[(c + 1 + j) % bs.length]?) := by
  intro n
  induction n with
  | zero => intro c; rfl
  | succ n ih =>
    intro c
    have hstep : LoadBalancer.roundRobinStep bs c
        = ((c + 1) % bs.length, bs[(c + 1) % bs.length]?) := by
      simp [LoadBalancer.roundRobinStep, hne]
    rw [List.range_succ_eq_map]
    simp only [LoadBalancer.roundRobinRun, hstep, List.map_cons, List.map_map]
    refine congrArg₂ (· :: ·) rfl ?_
    rw [ih ((c + 1) % bs.length)]
    refine List.map_congr_left (fun j _ => ?_)
    simp only [Function.comp]
    congr 1
    rw [Nat.add_assoc ((c + 1) % bs.length) 1 j, Nat.mod_add_mod]
    congr 1
    omega

/-- Idealized-counter form of the round-robin window property: with the
counter taken as an unbounded natural (no `usize` wrap), `k` consecutive
sequential uncontended round-robin selections are a permutation of the
snapshot — both for `RoundRobin::select` of `selection.rs` and for the
stateful round-robin arm of `LoadBalancer::select`. -/
theorem roundRobin_window_perm_nowrap :
    ∀ (bs : List Backend) (c : Nat),
      (((List.range bs.length).map (fun j => RoundRobin.select bs (c + j))).Perm
        (bs.map some)) ∧
      ((LoadBalancer.roundRobinRun bs c bs.length).Perm (bs.map some)) := by
  intro bs c
  by_cases hE : bs.isEmpty
  · have hnil : bs = [] := by simpa [List.isEmpty_iff] using hE
    subst hnil
    exact ⟨List.Perm.refl _, List.Perm.refl _⟩
  · have hlen : bs.length ≠ 0 := by
      simpa [List.isEmpty_iff, List.length_eq_zero] using hE
    constructor
    · have hsel : (List.range bs.length).map (fun j => RoundRobin.select bs (c + j))
          = (List.range bs.length).map (fun j => bs[(c + j) % bs.length]?) :=
        List.map_congr_left (fun j _ => by simp [RoundRobin.select, hlen])
      rw [hsel]
      exact getElem_rot_perm bs c
    · rw [roundRobinRun_eq_map bs hE]
      exact getElem_rot_perm bs (c + 1)

/-- The weighted scan only ever returns a member of the snapshot. -/
theorem wrrScan_mem : ∀ (l : List Backend) (i : Nat) (b : Backend),
    wrrScan l i = some b → b ∈ l := by
  intro l
  induction l with
  | nil => intro i b h; exact absurd h (by simp [wrrScan])
  | cons a t ih =>
    intro i b h
    by_cases hlt : i < a.weight
    · simp only [wrrScan, if_pos hlt, Option.some.injEq] at h
      exact h ▸ List.mem_cons_self a t
    · simp only [wrrScan, if_neg hlt] at h
      exact List.mem_cons_of_mem a (ih _ b h)

/-- Splitting the weighted scan over a full weight window at a cons cell: the
head backend occupies the first `a.weight` cursor positions and the tail scan
the rest. -/
theorem wrrScan_range_split (a : Backend) (t : List Backend) :
    (List.range (totalWeight (a :: t))).map (wrrScan (a :: t))
      = (List.range a.weight).map (fun _ => some a)
        ++ (List.range (totalWeight t)).map (wrrScan t) := by
  have htw : totalWeight (a :: t) = a.weight + totalWeight t := by
    simp [totalWeight]
  rw [htw, List.range_add, List.map_append, List.map_map]
  refine congrArg₂ (· ++ ·) ?_ ?_
  · refine List.map_congr_left (fun j hj => ?_)
    exact if_pos (List.mem_range.mp hj)
  · refine List.map_congr_left (fun j _ => ?_)
    simp only [Function.comp]
    rw [wrrScan, if_neg (by omega)]
    congr 1
    omega

/-- Over a full weight window, the weighted scan returns each backend of a
duplicate-free snapshot exactly its weight many times. -/
theorem wrrScan_range_count :
    ∀ (bs : List Backend), bs.Nodup → ∀ b ∈ bs,
      ((List.range (totalWeight bs)).map (wrrScan bs)).count (some b) = b.weight := by
  intro bs
  induction bs with
  | nil => intro _ b hb; exact absurd hb (List.not_mem_nil b)
  | cons a t ih =>
    intro hnd b hb
    have hat : a ∉ t := (List.nodup_cons.mp hnd).1
    have hndt : t.Nodup := (List.nodup_cons.mp hnd).2
    rw [wrrScan_range_split, List.count_append, List.map_const', List.length_range,
      List.count_replicate]
    rcases List.mem_cons.mp hb with hba | hbt
    · subst hba
      have hzero : ((List.range (totalWeight t)).map (wrrScan t)).count (some b) = 0 := by
        refine List.count_eq_zero.mpr (fun hmem => ?_)
        obtain ⟨i, _, hi⟩ := List.mem_map.mp hmem
        exact hat (wrrScan_mem t i b hi)
      simp [hzero]
    · have hba : b ≠ a := fun h => hat (h ▸ hbt)
      have hne : (some a == some b) = false := by
        simp [hba.symm]
      rw [hne, ih hndt b hbt]
      simp

/-- Idealized-counter form of the weighted window property: with the counter
taken as an unbounded natural (no `usize` wrap), `W = Σ weights` consecutive
sequential uncontended selections return each backend of a duplicate-free
positive-weight snapshot exactly its weight many times. -/
theorem wrr_window_counts_nowrap (bs : List Backend) (c : Nat) (hnd : bs.Nodup)
    (hw : ∀ x ∈ bs, 0 < x.weight) (b : Backend) (hb : b ∈ bs) :
    ((List.range (totalWeight bs)).map
        (fun j => WeightedRoundRobin.select bs (c + j))).count (some b)
      = b.weight := by
  have hble : b.weight ≤ totalWeight bs :=
    List.single_le_sum (fun x _ => Nat.zero_le x) b.weight
      (List.mem_map_of_mem Backend.weight hb)
  have hW : totalWeight bs ≠ 0 := by
    have := hw b hb
    omega
  have hsel : (List.range (totalWeight bs)).map (fun j => WeightedRoundRobin.select bs (c + j))
      = ((List.range (totalWeight bs)).map (fun j => (c + j) % totalWeight bs)).map
          (wrrScan bs) := by
    rw [List.map_map]
    refine List.map_congr_left (fun j _ => ?_)
    simp only [Function.comp, WeightedRoundRobin.select, if_neg hW]
  rw [hsel, List.count_eq_countP,
    List.Perm.countP_eq _ ((rot_range_perm (totalWeight bs) c).map (wrrScan bs)),
    ← List.count_eq_countP]
  exact wrrScan_range_count bs hnd b hb

/-- C5 fails as stated: `AtomicUsize::fetch_add` wraps at `2 ^ 64`, and the
window of 3 consecutive selections whose counter starts at `2 ^ 64 - 1` over a
3-backend snapshot yields indices 0, 0, 1 — the first backend twice and the
third never, not a permutation. -/
theorem roundRobin_wrap_counterexample :
    ¬ (((List.range 3).map
          (fun j => RoundRobin.select
            [{ addr := { ip := 1, port := 80 }, weight := 1 },
             { addr := { ip := 2, port := 80 }, weight := 1 },
             { addr := { ip := 3, port := 80 }, weight := 1 }]
            ((2 ^ 64 - 1 + j) % 2 ^ 64))).Perm
        ([{ addr := { ip := 1, port := 80 }, weight := 1 },
          { addr := { ip := 2, port := 80 }, weight := 1 },
          { addr := { ip := 3, port := 80 }, weight := 1 }].map some)) := by
  decide

/-- C5 (amended): the stateful round-robin arm of `LoadBalancer::select`,
whose stored counter is reduced modulo the snapshot length on every call,
satisfies the permutation property for every counter value; for
`RoundRobin::select` of `selection.rs`, whose `AtomicUsize` counter wraps at
`2 ^ 64`, any `k` consecutive sequential uncontended selections whose counter
window does not cross the wrap (`c + k ≤ 2 ^ 64` for the counter value `c`
before the window) produce all `k` backends, each exactly once. -/
theorem roundRobin_window_is_permutation_wrapped :
    ∀ (bs : List Backend) (c : Nat),
      ((LoadBalancer.roundRobinRun bs c bs.length).Perm (bs.map some)) ∧
      (c + bs.length ≤ 2 ^ 64 →
        (((List.range bs.length).map
            (fun j => RoundRobin.select bs ((c + j) % 2 ^ 64))).Perm (bs.map some))) := by
  intro bs c
  refine ⟨(roundRobin_window_perm_nowrap bs c).2, fun hwrap => ?_⟩
  have hmap : (List.range bs.length).map
        (fun j => RoundRobin.select bs ((c + j) % 2 ^ 64))
      = (List.range bs.length).map (fun j => RoundRobin.select bs (c + j)) :=
    List.map_congr_left (fun j hj => by
      rw [Nat.mod_eq_of_lt (by have := List.mem_range.mp hj; omega)])
  rw [hmap]
  exact (roundRobin_window_perm_nowrap bs c).1

theorem roundRobin_window_is_permutation_wrapped_witness :
    5 + ([{ addr := { ip := 1, port := 80 }, weight := 1 },
          { addr := { ip := 2, port := 80 }, weight := 1 }] : List Backend).length ≤ 2 ^ 64 ∧
    (((List.range
          ([{ addr := { ip := 1, port := 80 }, weight := 1 },
             { addr := { ip := 2, port := 80 }, weight := 1 }] : List Backend).length).map
        (fun j => RoundRobin.select
          [{ addr := { ip := 1, port := 80 }, weight := 1 },
           { addr := { ip := 2, port := 80 }, weight := 1 }] ((5 + j) % 2 ^ 64))).Perm
      ([{ addr := { ip := 1, port := 80 }, weight := 1 },
        { addr := { ip := 2, port := 80 }, weight := 1 }].map some)) :=
  ⟨by decide,
   (roundRobin_window_is_permutation_wrapped
      [{ addr := { ip := 1, port := 80 }, weight := 1 },
       { addr := { ip := 2, port := 80 }, weight := 1 }] 5).2 (by decide)⟩

/-- C6 fails as stated: with weights 2 and 1 (`W = 3`), the window of `W`
consecutive selections whose wrapping counter starts at `2 ^ 64 - 1` lands the
cursor on 0, 0, 1 — the first backend is selected all three times instead of
its weight 2 many times. -/
theorem weightedRoundRobin_wrap_counterexample :
    ¬ (((List.range
          (totalWeight
            [{ addr := { ip := 1, port := 80 }, weight := 2 },
             { addr := { ip := 2, port := 80 }, weight := 1 }])).map
        (fun j => WeightedRoundRobin.select
          [{ addr := { ip := 1, port := 80 }, weight := 2 },
           { addr := { ip := 2, port := 80 }, weight := 1 }]
          ((2 ^ 64 - 1 + j) % 2 ^ 64))).count
        (some { addr := { ip := 1, port := 80 }, weight := 2 })
      = 2) := by
  decide

/-- C6 (amended): for WeightedRoundRobin over a fixed duplicate-free snapshot
with positive weights, any `W = Σ weights` consecutive sequential uncontended
selections whose wrapping `AtomicUsize` counter window does not cross the
`2 ^ 64` wrap (`c + W ≤ 2 ^ 64` for the counter value `c` before the window)
return each backend exactly its weight many times. -/
theorem weightedRoundRobin_window_counts_wrapped (bs : List Backend) (c : Nat)
    (hnd : bs.Nodup) (hw : ∀ x ∈ bs, 0 < x.weight) (b : Backend) (hb : b ∈ bs)
    (hwrap : c + totalWeight bs ≤ 2 ^ 64) :
    ((List.range (totalWeight bs)).map
        (fun j => WeightedRoundRobin.select bs ((c + j) % 2 ^ 64))).count (some b)
      = b.weight := by
  have hmap : (List.range (totalWeight bs)).map
        (fun j => WeightedRoundRobin.select bs ((c + j) % 2 ^ 64))
      = (List.range (totalWeight bs)).map (fun j => WeightedRoundRobin.select bs (c + j)) :=
    List.map_congr_left (fun j hj => by
      rw [Nat.mod_eq_of_lt (by have := List.mem_range.mp hj; omega)])
  rw [hmap]
  exact wrr_window_counts_nowrap bs c hnd hw b hb

theorem weightedRoundRobin_window_counts_wrapped_witness :
    ((List.range
        (totalWeight
          [{ addr := { ip := 1, port := 80 }, weight := 3 },
           { addr := { ip := 2, port := 80 }, weight := 1 }])).map
      (fun j => WeightedRoundRobin.select
        [{ addr := { ip := 1, port := 80 }, weight := 3 },
         { addr := { ip := 2, port := 80 }, weight := 1 }] ((5 + j) % 2 ^ 64))).count
      (some { addr := { ip := 1, port := 80 }, weight := 3 }) = 3 :=
  weightedRoundRobin_window_counts_wrapped
    [{ addr := { ip := 1, port := 80 }, weight := 3 },
     { addr := { ip := 2, port := 80 }, weight := 1 }] 5 (by decide) (by decide)
    { addr := { ip := 1, port := 80 }, weight := 3 } (by decide) (by decide)

/-- `min_by_key` over a non-empty list returns the first element attaining the
minimal key: every element before it has a strictly larger key, every element
after it a key at least as large. -/
theorem minByKeyFold_cons_spec {α β : Type} [LinearOrder β] (f : α → β) :
    ∀ (l : List α) (m : α),
      ∃ b l₁ l₂,
        minByKeyFold f (m :: l) = some b ∧
        m :: l = l₁ ++ b :: l₂ ∧
        (∀ x ∈ l₁, f b < f x) ∧ (∀ x ∈ l₂, f b ≤ f x) := by
  intro l
  induction l with
  | nil =>
    intro m
    exact ⟨m, [], [], rfl, rfl, by simp, by simp⟩
  | cons x t ih =>
    intro m
    have hstep : (if f x < f m then some x else some m)
        = some (if f x < f m then x else m) :=
      (apply_ite some (f x < f m) x m).symm
    have hfold : minByKeyFold f (m :: x :: t)
        = minByKeyFold f ((if f x < f m then x else m) :: t) := by
      simp only [minByKeyFold, List.foldl_cons]
      rw [hstep]
    by_cases hlt : f x < f m
    · rw [if_pos hlt] at hfold
      obtain ⟨b, l₁, l₂, hsel, hdec, h₁, h₂⟩ := ih x
      have hble : f b ≤ f x := by
        cases l₁ with
        | nil =>
          rw [List.nil_append] at hdec
          have hxb : x = b ∧ t = l₂ := by simpa using hdec
          exact le_of_eq (congrArg f hxb.1.symm)
        | cons y r =>
          rw [List.cons_append] at hdec
          have hxy : x = y ∧ t = r ++ b :: l₂ := by simpa using hdec
          exact le_of_lt (h₁ x (hxy.1 ▸ List.mem_cons_self y r))
      refine ⟨b, m :: l₁, l₂, hfold.trans hsel, ?_, ?_, h₂⟩
      · rw [List.cons_append, ← hdec]
      · intro y hy
        rcases List.mem_cons.mp hy with hym | hyl
        · exact hym ▸ lt_of_le_of_lt hble hlt
        · exact h₁ y hyl
    · rw [if_neg hlt] at hfold
      obtain ⟨b, l₁, l₂, hsel, hdec, h₁, h₂⟩ := ih m
      cases l₁ with
      | nil =>
        rw [List.nil_append] at hdec
        have hmb : m = b ∧ t = l₂ := by simpa using hdec
        refine ⟨b, [], x :: l₂, hfold.trans hsel, ?_, by simp, ?_⟩
        · rw [List.nil_append, ← hmb.1, ← hmb.2]
        · intro y hy
          rcases List.mem_cons.mp hy with hyx | hyl
          · exact hyx ▸ (congrArg f hmb.1) ▸ le_of_not_lt hlt
          · exact h₂ y hyl
      | cons y r =>
        rw [List.cons_append] at hdec
        have hmy : m = y ∧ t = r ++ b :: l₂ := by simpa using hdec
        have hbm : f b < f m := h₁ m (hmy.1 ▸ List.mem_cons_self y r)
        refine ⟨b, m :: x :: r, l₂, hfold.trans hsel, ?_, ?_, h₂⟩
        · rw [List.cons_append, List.cons_append, hmy.2]
        · intro z hz
          rcases List.mem_cons.mp hz with hzm | hz'
          · exact hzm ▸ hbm
          rcases List.mem_cons.mp hz' with hzx | hzr
          · exact hzx ▸ lt_of_lt_of_le hbm (le_of_not_lt hlt)
          · exact h₁ z (hmy.1 ▸ List.mem_cons_of_mem y hzr)

/-- C8: over a non-empty snapshot, `LeastConnections::select` returns the first
backend, in snapshot iteration order, whose in-flight count is minimal, where
an address absent from the counts map counts as 0. -/
theorem leastConnections_selects_first_min (m : ConnMap) (bs : List Backend)
    (hne : bs ≠ []) :
    (∀ a : SocketAddr, connGet m a = none → connCount m a = 0) ∧
    ∃ b l₁ l₂,
      LeastConnections.select m bs = some b ∧
      bs = l₁ ++ b :: l₂ ∧
      (∀ x ∈ l₁, connCount m b.addr < connCount m x.addr) ∧
      (∀ x ∈ l₂, connCount m b.addr ≤ connCount m x.addr) := by
  refine ⟨fun a ha => by simp [connCount, ha], ?_⟩
  cases bs with
  | nil => exact absurd rfl hne
  | cons a t => exact minByKeyFold_cons_spec (fun b => connCount m b.addr) t a

theorem leastConnections_selects_first_min_witness :
    (∀ a : SocketAddr,
        connGet [({ ip := 1, port := 80 }, (2 : Int)), ({ ip := 2, port := 80 }, 1)] a = none →
        connCount [({ ip := 1, port := 80 }, (2 : Int)), ({ ip := 2, port := 80 }, 1)] a = 0) ∧
    ∃ b l₁ l₂,
      LeastConnections.select
          [({ ip := 1, port := 80 }, (2 : Int)), ({ ip := 2, port := 80 }, 1)]
          [{ addr := { ip := 1, port := 80 }, weight := 1 },
           { addr := { ip := 2, port := 80 }, weight := 1 },
           { addr := { ip := 3, port := 80 }, weight := 1 }] = some b ∧
      [{ addr := { ip := 1, port := 80 }, weight := 1 },
       { addr := { ip := 2, port := 80 }, weight := 1 },
       { addr := { ip := 3, port := 80 }, weight := 1 }] = l₁ ++ b :: l₂ ∧
      (∀ x ∈ l₁,
        connCount [({ ip := 1, port := 80 }, (2 : Int)), ({ ip := 2, port := 80 }, 1)] b.addr
          < connCount [({ ip := 1, port := 80 }, (2 : Int)), ({ ip := 2, port := 80 }, 1)] x.addr) ∧
      (∀ x ∈ l₂,
        connCount [({ ip := 1, port := 80 }, (2 : Int)), ({ ip := 2, port := 80 }, 1)] b.addr
          ≤ connCount [({ ip := 1, port := 80 }, (2 : Int)), ({ ip := 2, port := 80 }, 1)] x.addr) :=
  leastConnections_selects_first_min
    [({ ip := 1, port := 80 }, (2 : Int)), ({ ip := 2, port := 80 }, 1)]
    [{ addr := { ip := 1, port := 80 }, weight := 1 },
     { addr := { ip := 2, port := 80 }, weight := 1 },
     { addr := { ip := 3, port := 80 }, weight := 1 }] (by decide)

/-- The per-backend distance the claim describes for ConsistentHash: a 64-bit
hash of each `(address, virtual-node-index)` pair, the backend scoring the
least XOR distance to the key hash over its virtual nodes. Stated from the
claim's words; it depends only on the backend's address, never its weight. -/
def vnodeDistance (hashAddrVnode : SocketAddr → Nat → Nat) (vnodes : Nat)
    (keyHash : Nat) (b : Backend) : Nat :=
  ((List.range vnodes).map (fun i => Nat.xor (hashAddrVnode b.addr i) keyHash)).foldr
    min (2 ^ 64)

/-- The ConsistentHash selection the claim describes, stated from the claim's
words: without a key, `none`; with a key, the backend minimizing the
virtual-node XOR distance to the key's hash. -/
def consistentHashClaim (hashStr : String → Nat) (hashAddrVnode : SocketAddr → Nat → Nat)
    (vnodes : Nat) (backends : List Backend) (key : Option String) : Option Backend :=
  if backends.isEmpty then none
  else
    match key with
    | some k => minByKeyFold (vnodeDistance hashAddrVnode vnodes (hashStr k)) backends
    | none => none

/-- C9 fails as stated: the implemented ConsistentHashing arm of
`LoadBalancer::select` ranks backends by a hash of the whole backend —
`Backend::hash_key` covers address and weight — so with a weight-sensitive
hasher it distinguishes two backends sharing an address, while the claimed
`(address, virtual-node-index)` hashing cannot, whatever the hash family and
virtual-node count. -/
theorem consistentHash_vnode_counterexample :
    ¬ ∃ (hashAddrVnode : SocketAddr → Nat → Nat) (vnodes : Nat),
        ∀ (bs : List Backend) (key : Option String),
          LoadBalancer.select (fun _ => 0) (fun b => 2 - b.weight) .consistentHashing bs key
            = consistentHashClaim (fun _ => 0) hashAddrVnode vnodes bs key := by
  rintro ⟨hA, V, h⟩
  have hinst := h
    [{ addr := { ip := 1, port := 80 }, weight := 1 },
     { addr := { ip := 1, port := 80 }, weight := 2 }] (some "k")
  have hcode : LoadBalancer.select (fun _ => 0) (fun b => 2 - b.weight) .consistentHashing
      [{ addr := { ip := 1, port := 80 }, weight := 1 },
       { addr := { ip := 1, port := 80 }, weight := 2 }] (some "k")
      = some { addr := { ip := 1, port := 80 }, weight := 2 } := by
    decide
  have hdist : vnodeDistance hA V ((fun (_ : String) => 0) "k")
        { addr := { ip := 1, port := 80 }, weight := 2 }
      = vnodeDistance hA V ((fun (_ : String) => 0) "k")
        { addr := { ip := 1, port := 80 }, weight := 1 } := rfl
  have hclaim : consistentHashClaim (fun _ => 0) hA V
      [{ addr := { ip := 1, port := 80 }, weight := 1 },
       { addr := { ip := 1, port := 80 }, weight := 2 }] (some "k")
      = some { addr := { ip := 1, port := 80 }, weight := 1 } := by
    simp only [consistentHashClaim, List.isEmpty_cons, minByKeyFold, List.foldl_cons,
      List.foldl_nil, hdist, lt_irrefl, if_false, Bool.false_eq_true]
  rw [hinst, hclaim] at hcode
  exact absurd (Option.some.injEq .. ▸ hcode) (by decide)

/-- C9 (amended): the ConsistentHashing arm of `LoadBalancer::select` over a
non-empty snapshot returns `none` when called without a key; with a key it
hashes the key and each whole backend (address and weight, via
`Backend::hash_key`) and returns the first backend, in snapshot iteration
order, minimizing the XOR distance between its hash and the key's hash. The
standalone `ConsistentHashing::select` of `selection.rs` is unimplemented. -/
theorem consistentHash_amended (hashStr : String → Nat) (hashBackend : Backend → Nat)
    (bs : List Backend) (hne : bs ≠ []) (k : String) :
    LoadBalancer.select hashStr hashBackend .consistentHashing bs none = none ∧
    ∃ b l₁ l₂,
      LoadBalancer.select hashStr hashBackend .consistentHashing bs (some k) = some b ∧
      bs = l₁ ++ b :: l₂ ∧
      (∀ x ∈ l₁,
        Nat.xor (hashBackend b) (hashStr k) < Nat.xor (hashBackend x) (hashStr k)) ∧
      (∀ x ∈ l₂,
        Nat.xor (hashBackend b) (hashStr k) ≤ Nat.xor (hashBackend x) (hashStr k)) := by
  cases bs with
  | nil => exact absurd rfl hne
  | cons a t =>
    constructor
    · simp [LoadBalancer.select]
    · have hspec := minByKeyFold_cons_spec (fun b => Nat.xor (hashBackend b) (hashStr k)) t a
      simpa [LoadBalancer.select] using hspec

theorem consistentHash_amended_witness :
    LoadBalancer.select (fun _ => 7) (fun b => b.addr.ip) .consistentHashing
        [{ addr := { ip := 1, port := 80 }, weight := 1 },
         { addr := { ip := 2, port := 80 }, weight := 1 }] none = none ∧
    ∃ b l₁ l₂,
      LoadBalancer.select (fun _ => 7) (fun b => b.addr.ip) .consistentHashing
          [{ addr := { ip := 1, port := 80 }, weight := 1 },
           { addr := { ip := 2, port := 80 }, weight := 1 }] (some "k") = some b ∧
      [{ addr := { ip := 1, port := 80 }, weight := 1 },
       { addr := { ip := 2, port := 80 }, weight := 1 }] = l₁ ++ b :: l₂ ∧
      (∀ x ∈ l₁, Nat.xor (b.addr.ip) 7 < Nat.xor (x.addr.ip) 7) ∧
      (∀ x ∈ l₂, Nat.xor (b.addr.ip) 7 ≤ Nat.xor (x.addr.ip) 7) :=
  consistentHash_amended (fun _ => 7) (fun b => b.addr.ip)
    [{ addr := { ip := 1, port := 80 }, weight := 1 },
     { addr := { ip := 2, port := 80 }, weight := 1 }] (by decide) "k"

/-- A connection-lifecycle event on the `LeastConnections` counts map:
`increment` when a connection is handed to a backend, `decrement` on
teardown. -/
inductive ConnOp where
  | inc (a : SocketAddr)
  | dec (a : SocketAddr)
deriving DecidableEq

/-- Apply a sequence of increment/decrement operations to the counts map. -/
def applyConnOps (m : ConnMap) : List ConnOp → ConnMap
  | [] => m
  | op :: rest =>
    applyConnOps
      (match op with
        | .inc a => LeastConnections.increment m a
        | .dec a => LeastConnections.decrement m a)
      rest

theorem increment_nonneg (m : ConnMap) (a : SocketAddr)
    (h : ∀ p ∈ m, 0 ≤ p.2) : ∀ p ∈ LeastConnections.increment m a, 0 ≤ p.2 := by
  induction m with
  | nil =>
    intro p hp
    simp only [LeastConnections.increment, List.mem_singleton] at hp
    simp [hp]
  | cons kv rest ih =>
    intro p hp
    by_cases hk : kv.1 = a
    · simp only [LeastConnections.increment, if_pos hk, List.mem_cons] at hp
      rcases hp with hp | hp
      · have := h kv (List.mem_cons_self kv rest)
        simp [hp]
        omega
      · exact h p (List.mem_cons_of_mem kv hp)
    · simp only [LeastConnections.increment, if_neg hk, List.mem_cons] at hp
      rcases hp with hp | hp
      · exact hp ▸ h kv (List.mem_cons_self kv rest)
      · exact ih (fun q hq => h q (List.mem_cons_of_mem kv hq)) p hp

theorem decrement_nonneg (m : ConnMap) (a : SocketAddr)
    (h : ∀ p ∈ m, 0 ≤ p.2) : ∀ p ∈ LeastConnections.decrement m a, 0 ≤ p.2 := by
  induction m with
  | nil =>
    intro p hp
    simp [LeastConnections.decrement] at hp
  | cons kv rest ih =>
    intro p hp
    by_cases hk : kv.1 = a
    · simp only [LeastConnections.decrement, if_pos hk] at hp
      by_cases hv : kv.2 > 0
      · rw [if_pos hv] at hp
        rcases List.mem_cons.mp hp with hp | hp
        · simp [hp]
          omega
        · exact h p (List.mem_cons_of_mem kv hp)
      · rw [if_neg hv] at hp
        rcases List.mem_cons.mp hp with hp | hp
        · exact hp ▸ h kv (List.mem_cons_self kv rest)
        · exact h p (List.mem_cons_of_mem kv hp)
    · simp only [LeastConnections.decrement, if_neg hk] at hp
      rcases List.mem_cons.mp hp with hp | hp
      · exact hp ▸ h kv (List.mem_cons_self kv rest)
      · exact ih (fun q hq => h q (List.mem_cons_of_mem kv hq)) p hp

/-- C10: the in-flight counts never underflow. Decrementing an address whose
count is 0 leaves the count at 0; decrementing an address absent from the map
leaves the map unchanged; and from any map whose counts are all non-negative,
any sequence of increments and decrements keeps every count non-negative. -/
theorem leastConnections_no_underflow :
    (∀ (m : ConnMap) (a : SocketAddr),
      connGet m a = some 0 → connGet (LeastConnections.decrement m a) a = some 0) ∧
    (∀ (m : ConnMap) (a : SocketAddr),
      connGet m a = none → LeastConnections.decrement m a = m) ∧
    (∀ (m : ConnMap), (∀ p ∈ m, 0 ≤ p.2) →
      ∀ (ops : List ConnOp), ∀ p ∈ applyConnOps m ops, 0 ≤ p.2) := by
  refine ⟨?_, ?_, ?_⟩
  · intro m a
    induction m with
    | nil => intro h; exact absurd h (by simp [connGet])
    | cons kv rest ih =>
      intro h
      by_cases hk : kv.1 = a
      · simp only [connGet, if_pos hk, Option.some.injEq] at h
        simp [LeastConnections.decrement, hk, h, connGet]
      · simp only [connGet, if_neg hk] at h
        simp only [LeastConnections.decrement, if_neg hk, connGet, if_neg hk]
        exact ih h
  · intro m a
    induction m with
    | nil => intro _; rfl
    | cons kv rest ih =>
      intro h
      by_cases hk : kv.1 = a
      · simp [connGet, if_pos hk] at h
      · simp only [connGet, if_neg hk] at h
        simp only [LeastConnections.decrement, if_neg hk]
        rw [ih h]
  · intro m hm ops
    induction ops generalizing m with
    | nil => exact hm
    | cons op rest ih =>
      cases op with
      | inc a => exact ih (LeastConnections.increment m a) (increment_nonneg m a hm)
      | dec a => exact ih (LeastConnections.decrement m a) (decrement_nonneg m a hm)

theorem leastConnections_no_underflow_witness :
    connGet
        (LeastConnections.decrement [({ ip := 1, port := 80 }, (0 : Int))]
          { ip := 1, port := 80 })
        { ip := 1, port := 80 } = some 0 ∧
    LeastConnections.decrement [({ ip := 1, port := 80 }, (3 : Int))] { ip := 2, port := 80 }
        = [({ ip := 1, port := 80 }, (3 : Int))] ∧
    (0 : Int) ≤ (({ ip := 1, port := 80 }, (0 : Int)) : SocketAddr × Int).2 :=
  ⟨leastConnections_no_underflow.1 [({ ip := 1, port := 80 }, (0 : Int))]
      { ip := 1, port := 80 } (by decide),
   leastConnections_no_underflow.2.1 [({ ip := 1, port := 80 }, (3 : Int))]
      { ip := 2, port := 80 } (by decide),
   leastConnections_no_underflow.2.2 [] (by decide)
      [ConnOp.inc { ip := 1, port := 80 }, ConnOp.dec { ip := 1, port := 80 }]
      ({ ip := 1, port := 80 }, (0 : Int)) (by decide)⟩
